import Mathlib

/-!
Shallow embedding of the python-schoof core:
  * `src/polynomials/naive.py` (`PolynomialRing`, `ListPolynomial`)
  * `src/pyschoof/rings/quotients/naive.py` (`QuotientRing`), instantiated
    with the integer source ring.

Python exceptions are modelled by an explicit error type; fallible
operations return `Except PyError`.  Python's `%` and `//` on `int` follow
the flooring convention, which is `Int.fmod` / `Int.fdiv`.
-/

/-- The Python exceptions raised by the embedded code.  The specification's
error taxonomy names them differently: `NotInvertibleError` is the spec's
name for the `TypeError` raised by `ListPolynomial.multiplicative_inverse`
and for the `ZeroDivisionError` raised by
`QuotientRing.multiplicative_inverse`; an out-of-range list subscript raises
`IndexError`. -/
inductive PyError where
  | typeError
  | zeroDivisionError
  | indexError
deriving DecidableEq

/-- `ListPolynomial` from `src/polynomials/naive.py`: the stored
`__zero_coefficient` together with the coefficient list (ascending order of
powers). -/
structure ListPolynomial (R : Type) where
  zeroCoefficient : R
  coefficients : List R

/-- The `while` loop of `ListPolynomial.__remove_leading_zeros`, acting on
the REVERSED coefficient list: while more than one element remains and the
head (the highest-index coefficient of the original list) compares `==` to
the zero coefficient, drop it. -/
def ListPolynomial.dropZerosRev {R : Type} [BEq R] (z : R) : List R → List R
  | [] => []
  | [c] => [c]
  | c :: c' :: rest =>
      if c == z then ListPolynomial.dropZerosRev z (c' :: rest)
      else c :: c' :: rest

/-- `ListPolynomial.__remove_leading_zeros` (lines 104-107): repeatedly pop
the last coefficient while the list has more than one element and the last
coefficient equals the zero coefficient. -/
def ListPolynomial.remove_leading_zeros {R : Type} [BEq R] (z : R) (l : List R) :
    List R :=
  (ListPolynomial.dropZerosRev z l.reverse).reverse

/-- `ListPolynomial.__init__` (lines 43-48): store the zero coefficient and
the coefficient list, then normalize in place. -/
def ListPolynomial.make {R : Type} [BEq R] (z : R) (l : List R) :
    ListPolynomial R :=
  ⟨z, ListPolynomial.remove_leading_zeros z l⟩

/-- `ListPolynomial.degree` (lines 51-53): `len(self.__coefficients) - 1`,
as a (possibly negative) integer. -/
def ListPolynomial.degree {R : Type} (p : ListPolynomial R) : Int :=
  (p.coefficients.length : Int) - 1

/-- `ListPolynomial.__getitem__` (lines 56-57): plain Python list
subscription `self.__coefficients[index]`; for a non-negative index this
returns the stored coefficient when the index is in range and raises
`IndexError` otherwise. -/
def ListPolynomial.getItem {R : Type} (p : ListPolynomial R) (i : Nat) :
    Except PyError R :=
  match p.coefficients[i]? with
  | some c => Except.ok c
  | none => Except.error PyError.indexError

/-- `ListPolynomial.__eq__` (lines 60-69): `False` if the degrees differ,
otherwise coefficient-wise `==` over the two (equal-length) lists. -/
def ListPolynomial.beq {R : Type} [BEq R] (p q : ListPolynomial R) : Bool :=
  p.degree == q.degree &&
    (p.coefficients.zip q.coefficients).all fun xy => xy.1 == xy.2

/-- `ListPolynomial.__pad_and_zip` (lines 122-127): pad both lists with the
padding element up to the longer length and zip them. -/
def ListPolynomial.padAndZip {R : Type} (z : R) (l1 l2 : List R) :
    List (R × R) :=
  (l1 ++ List.replicate (max l1.length l2.length - l1.length) z).zip
    (l2 ++ List.replicate (max l1.length l2.length - l2.length) z)

/-- `ListPolynomial.__add__` (lines 72-79): pad-and-zip with the zero
coefficient, sum the pairs, re-run the constructor. -/
def ListPolynomial.add {R : Type} [BEq R] [Add R] (p q : ListPolynomial R) :
    ListPolynomial R :=
  ListPolynomial.make p.zeroCoefficient
    ((ListPolynomial.padAndZip p.zeroCoefficient p.coefficients
        q.coefficients).map fun xy => xy.1 + xy.2)

/-- `ListPolynomial.__neg__` (lines 82-86): negate every coefficient, re-run
the constructor. -/
def ListPolynomial.neg {R : Type} [BEq R] [Neg R] (p : ListPolynomial R) :
    ListPolynomial R :=
  ListPolynomial.make p.zeroCoefficient (p.coefficients.map fun c => -c)

/-- Inner loop of `ListPolynomial.__mul__` (lines 93-95):
`for j, y in enumerate(other.__coefficients): result[i+j] += x*y`, with `j`
starting from the given value. -/
def ListPolynomial.mulRowAux {R : Type} [Add R] [Mul R] (z x : R) (i : Nat) :
    List R → Nat → List R → List R
  | [], _, acc => acc
  | y :: ys, j, acc =>
      ListPolynomial.mulRowAux z x i ys (j + 1)
        (acc.set (i + j) (acc.getD (i + j) z + x * y))

/-- Outer loop of `ListPolynomial.__mul__` (lines 93-95):
`for i, x in enumerate(self.__coefficients)`, with `i` starting from the
given value. -/
def ListPolynomial.mulAux {R : Type} [Add R] [Mul R] (z : R) (qs : List R) :
    List R → Nat → List R → List R
  | [], _, acc => acc
  | x :: xs, i, acc =>
      ListPolynomial.mulAux z qs xs (i + 1)
        (ListPolynomial.mulRowAux z x i qs 0 acc)

/-- `ListPolynomial.__mul__` (lines 89-97) before the final constructor
call: initialize `result` as `self.degree() + other.degree() + 2` copies of
the zero coefficient (that count equals `ps.length + qs.length`), then run
the two nested accumulation loops. -/
def ListPolynomial.mulAccum {R : Type} [Add R] [Mul R] (z : R)
    (ps qs : List R) : List R :=
  ListPolynomial.mulAux z qs ps 0 (List.replicate (ps.length + qs.length) z)

/-- `ListPolynomial.__mul__` (lines 89-97). -/
def ListPolynomial.mul {R : Type} [BEq R] [Add R] [Mul R]
    (p q : ListPolynomial R) : ListPolynomial R :=
  ListPolynomial.make p.zeroCoefficient
    (ListPolynomial.mulAccum p.zeroCoefficient p.coefficients q.coefficients)

/-- `ListPolynomial.multiplicative_inverse` (lines 100-101):
`raise TypeError`, unconditionally.  The spec calls this failure
`NotInvertibleError`. -/
def ListPolynomial.multiplicative_inverse {R : Type} (_p : ListPolynomial R) :
    Except PyError (ListPolynomial R) :=
  Except.error PyError.typeError

/-- The normalization invariant of section 3 of the spec: the coefficient
list is non-empty, and its highest-index element compares `==` to the zero
coefficient only when it is the sole element. -/
def ListPolynomial.normalizedB {R : Type} [BEq R] (z : R) (l : List R) :
    Bool :=
  !l.isEmpty &&
    (match l.getLast? with
     | none => true
     | some c => !(c == z) || l.length == 1)

/-- `PolynomialRing.__call__` (lines 13-23): coerce each raw coefficient
into the coefficient ring and hand the list, together with the ring's zero,
to the `ListPolynomial` constructor.  The function is generic in the
coefficient ring; for the integer coefficient ring the coercion is the
identity, giving `PolynomialRing.callInt`.  No arity check is performed. -/
def PolynomialRing.call {R : Type} [BEq R] (zero : R) (l : List R) :
    ListPolynomial R :=
  ListPolynomial.make zero l

/-- `PolynomialRing.__call__` over the integer coefficient ring. -/
def PolynomialRing.callInt (l : List Int) : ListPolynomial Int :=
  PolynomialRing.call (0 : Int) l

/-- A residue class of `QuotientRing` from
`src/pyschoof/rings/quotients/naive.py`, instantiated with the integer
source ring (`rings.integers.naive.Integers`, which is not under `src/`;
its operations are Python `int` arithmetic).  The type is indexed by the
fixed modulus `m`; the single stored field is `self.__remainder`. -/
structure QuotientRing (m : Int) where
  remainder : Int
deriving DecidableEq

/-- `QuotientRing.__init__` (lines 101-114), source-ring-representative
branch: store `representative % modulus`.  Python's `%` on `int` is
`Int.fmod`. -/
def QuotientRing.wrap (m : Int) (representative : Int) : QuotientRing m :=
  ⟨Int.fmod representative m⟩

/-- `QuotientRing.__eq__` (lines 138-149): compare the stored remainders. -/
def QuotientRing.equals {m : Int} (u v : QuotientRing m) : Bool :=
  u.remainder == v.remainder

/-- `QuotientRing.__add__` (lines 151-161): add the remainders and re-run
the constructor. -/
def QuotientRing.add {m : Int} (u v : QuotientRing m) : QuotientRing m :=
  QuotientRing.wrap m (u.remainder + v.remainder)

/-- `QuotientRing.__neg__` (lines 163-169): negate the remainder and re-run
the constructor. -/
def QuotientRing.neg {m : Int} (u : QuotientRing m) : QuotientRing m :=
  QuotientRing.wrap m (-u.remainder)

/-- `QuotientRing.__mul__` (lines 171-181): multiply the remainders and
re-run the constructor. -/
def QuotientRing.mul {m : Int} (u v : QuotientRing m) : QuotientRing m :=
  QuotientRing.wrap m (u.remainder * v.remainder)

/-- `QuotientRing.zero` (lines 250-256): wrap the source ring's zero. -/
def QuotientRing.zero (m : Int) : QuotientRing m :=
  QuotientRing.wrap m 0

/-- `QuotientRing.one` (lines 258-264): wrap the source ring's one. -/
def QuotientRing.one (m : Int) : QuotientRing m :=
  QuotientRing.wrap m 1

/-- Modelled from the spec: `extended_euclidean_algorithm` lives in
`support/rings.py`, which is not under `src/`.  Spec section 4.5: repeated
division-with-remainder tracking Bezout coefficients; on input `(a, b)` it
returns `(x, y, g)` with `a*x + b*y = g` and `g` a greatest common divisor
of `a` and `b`.  Division-with-remainder of the integer source ring is
Python `divmod`, i.e. `Int.fdiv` / `Int.fmod`.  The recursion is driven by
a fuel parameter for executability; `extended_euclidean_algorithm` supplies
`b.natAbs + 1` fuel, which is never exhausted (see `eeaFuel_congr`). -/
def eeaFuel : Nat → Int → Int → Int × Int × Int
  | 0, a, _ => (1, 0, a)
  | fuel + 1, a, b =>
      if b = 0 then (1, 0, a)
      else
        match eeaFuel fuel b (Int.fmod a b) with
        | (x, y, g) => (y, x - Int.fdiv a b * y, g)

/-- Modelled from the spec (section 4.5), see `eeaFuel`. -/
def extended_euclidean_algorithm (a b : Int) : Int × Int × Int :=
  eeaFuel (b.natAbs + 1) a b

/-- `QuotientRing.multiplicative_inverse` (lines 212-231): raise
`ZeroDivisionError` (the spec's `NotInvertibleError`) if the remainder is
zero; otherwise run the extended Euclidean algorithm on
`(remainder, modulus)` and, if the computed gcd equals the source ring's
one, wrap the Bezout coefficient, else raise `ZeroDivisionError`. -/
def QuotientRing.multiplicative_inverse {m : Int} (u : QuotientRing m) :
    Except PyError (QuotientRing m) :=
  if u.remainder = 0 then Except.error PyError.zeroDivisionError
  else
    match extended_euclidean_algorithm u.remainder m with
    | (inverse, _, gcd) =>
        if gcd = 1 then Except.ok (QuotientRing.wrap m inverse)
        else Except.error PyError.zeroDivisionError

/-- `QuotientRing.__truediv__` (lines 183-195): multiply by the
multiplicative inverse of the divisor; the divisor's failure propagates. -/
def QuotientRing.divide {m : Int} (u v : QuotientRing m) :
    Except PyError (QuotientRing m) :=
  (v.multiplicative_inverse).map fun w => u.mul w

/-- The reduction invariant of section 3 of the spec: the stored remainder
is a fixed point of reduction modulo the modulus. -/
def QuotientRing.reduced {m : Int} (u : QuotientRing m) : Prop :=
  Int.fmod u.remainder m = u.remainder

/-! ### Helper lemmas about reduction modulo a positive modulus -/

theorem fmod_fmod_self {m : Int} (hm : 0 < m) (x : Int) :
    Int.fmod (Int.fmod x m) m = Int.fmod x m := by
  rw [Int.fmod_eq_emod _ hm.le, Int.fmod_eq_emod _ hm.le,
    Int.emod_emod_of_dvd _ dvd_rfl]

theorem wrap_remainder (m x : Int) :
    (QuotientRing.wrap m x).remainder = Int.fmod x m := rfl

/-! ### The Bezout identity for the modelled extended Euclidean algorithm -/

theorem eeaFuel_bezout (fuel : Nat) (a b : Int) :
    a * (eeaFuel fuel a b).1 + b * (eeaFuel fuel a b).2.1
      = (eeaFuel fuel a b).2.2 := by
  induction fuel generalizing a b with
  | zero => simp [eeaFuel]
  | succ fuel ih =>
    by_cases hb : b = 0
    · simp [eeaFuel, hb]
    · have h := ih b (Int.fmod a b)
      rcases ht : eeaFuel fuel b (Int.fmod a b) with ⟨x, y, g⟩
      rw [ht] at h
      simp only [eeaFuel, if_neg hb, ht]
      simp only at h
      rw [Int.fmod_def] at h
      ring_nf
      ring_nf at h
      linarith [h]

theorem eea_bezout (a b : Int) :
    a * (extended_euclidean_algorithm a b).1
      + b * (extended_euclidean_algorithm a b).2.1
      = (extended_euclidean_algorithm a b).2.2 :=
  eeaFuel_bezout (b.natAbs + 1) a b

/-- The fuel supplied by `extended_euclidean_algorithm` is never exhausted
when the second argument is non-negative: any two sufficient fuel values
compute the same result, so the model agrees with the unbounded Python
recursion of the spec. -/
theorem eeaFuel_congr (n : Nat) :
    ∀ fuel fuel' a b, b.natAbs ≤ n → 0 ≤ b → b.natAbs < fuel →
      b.natAbs < fuel' → eeaFuel fuel a b = eeaFuel fuel' a b := by
  induction n with
  | zero =>
    intro fuel fuel' a b hn hb hf hf'
    have hb0 : b = 0 := by omega
    rcases fuel with _ | fuel
    · omega
    rcases fuel' with _ | fuel'
    · omega
    simp [eeaFuel, hb0]
  | succ n ih =>
    intro fuel fuel' a b hn hb hf hf'
    rcases fuel with _ | fuel
    · omega
    rcases fuel' with _ | fuel'
    · omega
    by_cases hb0 : b = 0
    · simp [eeaFuel, hb0]
    · have hbpos : 0 < b := lt_of_le_of_ne hb (Ne.symm hb0)
      have hrn : (Int.fmod a b).natAbs < b.natAbs := by
        have h1 : 0 ≤ Int.fmod a b := Int.fmod_nonneg' a hbpos
        have h2 : Int.fmod a b < b := Int.fmod_lt_of_pos a hbpos
        omega
      have hrpos : 0 ≤ Int.fmod a b := Int.fmod_nonneg' a hbpos
      have := ih fuel fuel' b (Int.fmod a b) (by omega) hrpos (by omega)
        (by omega)
      simp only [eeaFuel, if_neg hb0, this]

/-! ### Claims C4 and C5: quotient-ring invariants and homomorphism laws -/

/-- C4: every quotient-ring element stores a canonically reduced remainder
(equal to its representative mod the modulus, via the source ring's
division-with-remainder), and this invariant is preserved by every
operation: construction, add, neg, mul, divide, multiplicative_inverse,
zero, and one all produce elements whose stored remainder is already
reduced. -/
theorem C4_reduced_invariant (m : Int) (hm : 0 < m) :
    (∀ x : Int, (QuotientRing.wrap m x).remainder = Int.fmod x m) ∧
    (∀ x : Int, (QuotientRing.wrap m x).reduced) ∧
    (∀ u v : QuotientRing m, (u.add v).reduced) ∧
    (∀ u : QuotientRing m, u.neg.reduced) ∧
    (∀ u v : QuotientRing m, (u.mul v).reduced) ∧
    (∀ u v w : QuotientRing m, u.divide v = Except.ok w → w.reduced) ∧
    (∀ u w : QuotientRing m,
      u.multiplicative_inverse = Except.ok w → w.reduced) ∧
    (QuotientRing.zero m).reduced ∧ (QuotientRing.one m).reduced := by
  have hwrap : ∀ x : Int, (QuotientRing.wrap m x).reduced := by
    intro x
    exact fmod_fmod_self hm x
  have hinv : ∀ u w : QuotientRing m,
      u.multiplicative_inverse = Except.ok w → w.reduced := by
    intro u w h
    unfold QuotientRing.multiplicative_inverse at h
    by_cases hr : u.remainder = 0
    · simp [hr] at h
    · rcases ht : extended_euclidean_algorithm u.remainder m with ⟨x, y, g⟩
      rw [if_neg hr, ht] at h
      by_cases hg : g = 1
      · simp only [hg, if_pos, Except.ok.injEq] at h
        rw [← h]
        exact hwrap x
      · simp [hg] at h
  refine ⟨fun x => rfl, hwrap, fun u v => hwrap _, fun u => hwrap _,
    fun u v => hwrap _, ?_, hinv, hwrap 0, hwrap 1⟩
  intro u v w h
  unfold QuotientRing.divide at h
  cases hv : v.multiplicative_inverse with
  | error e => rw [hv] at h; cases h
  | ok w' =>
    rw [hv] at h
    cases h
    exact hwrap _

/-- Witness for C4 at modulus 4. -/
theorem C4_reduced_invariant_witness : (QuotientRing.wrap 4 7).reduced :=
  (C4_reduced_invariant 4 (by decide)).2.1 7

/-- C5: the quotient-ring construction is a ring homomorphism from the
source ring: wrapping then operating equals operating then wrapping, for
add and mul; concretely in Z/4Z, [1]+[3] = [0] and [2]*[2] = [0]. -/
theorem C5_canonical_homomorphism (m : Int) (hm : 0 < m) :
    (∀ x y : Int,
      ((QuotientRing.wrap m x).add (QuotientRing.wrap m y)).equals
        (QuotientRing.wrap m (x + y)) = true) ∧
    (∀ x y : Int,
      ((QuotientRing.wrap m x).mul (QuotientRing.wrap m y)).equals
        (QuotientRing.wrap m (x * y)) = true) ∧
    ((QuotientRing.wrap 4 1).add (QuotientRing.wrap 4 3)).equals
      (QuotientRing.wrap 4 0) = true ∧
    ((QuotientRing.wrap 4 2).mul (QuotientRing.wrap 4 2)).equals
      (QuotientRing.wrap 4 0) = true := by
  refine ⟨fun x y => ?_, fun x y => ?_, by rfl, by rfl⟩
  · simp only [QuotientRing.equals, QuotientRing.add, QuotientRing.wrap,
      beq_iff_eq, Int.fmod_eq_emod _ hm.le]
    conv_rhs => rw [Int.add_emod]
  · simp only [QuotientRing.equals, QuotientRing.mul, QuotientRing.wrap,
      beq_iff_eq, Int.fmod_eq_emod _ hm.le]
    conv_rhs => rw [Int.mul_emod]

/-- Witness for C5 at modulus 4 with representatives 1 and 3. -/
theorem C5_canonical_homomorphism_witness :
    ((QuotientRing.wrap 4 1).add (QuotientRing.wrap 4 3)).equals
      (QuotientRing.wrap 4 (1 + 3)) = true :=
  (C5_canonical_homomorphism 4 (by decide)).1 1 3

/-! ### Claim C1: the inversion law of the quotient ring -/

/-- C1: for every quotient-ring element u whose stored remainder is
non-zero and whose gcd with the modulus (as computed by the extended
Euclidean algorithm) equals the source ring's one,
multiplicative_inverse() returns the wrapped Bezout coefficient and
`u.mul(u.multiplicative_inverse()).equals(one())` holds;
multiplicative_inverse() fails with the spec's NotInvertibleError (the
code's ZeroDivisionError) if and only if the stored remainder is zero or
the gcd is not the source ring's one; in particular, in Z/4Z the element
[2] fails. -/
theorem C1_multiplicative_inverse (m : Int) (hm : 0 < m)
    (u : QuotientRing m) :
    (u.remainder ≠ 0 →
      (extended_euclidean_algorithm u.remainder m).2.2 = 1 →
      u.multiplicative_inverse = Except.ok (QuotientRing.wrap m
        (extended_euclidean_algorithm u.remainder m).1) ∧
      (u.mul (QuotientRing.wrap m
          (extended_euclidean_algorithm u.remainder m).1)).equals
        (QuotientRing.one m) = true) ∧
    (u.multiplicative_inverse = Except.error PyError.zeroDivisionError ↔
      (u.remainder = 0 ∨
        (extended_euclidean_algorithm u.remainder m).2.2 ≠ 1)) ∧
    (QuotientRing.wrap 4 2).multiplicative_inverse
      = Except.error PyError.zeroDivisionError := by
  have hbez := eea_bezout u.remainder m
  rcases ht : extended_euclidean_algorithm u.remainder m with ⟨x, y, g⟩
  rw [ht] at hbez
  simp only at hbez
  refine ⟨?_, ?_, by rfl⟩
  · intro hr hg
    dsimp only at hg ⊢
    constructor
    · unfold QuotientRing.multiplicative_inverse
      rw [if_neg hr, ht]
      simp [hg]
    · simp only [QuotientRing.mul, QuotientRing.one, QuotientRing.wrap,
        QuotientRing.equals, beq_iff_eq, Int.fmod_eq_emod _ hm.le]
      have hmul : u.remainder * (x % m) % m = u.remainder * x % m := by
        conv_lhs => rw [Int.mul_emod]
        conv_rhs => rw [Int.mul_emod]
        rw [Int.emod_emod_of_dvd _ dvd_rfl]
      rw [hmul]
      have hrx : u.remainder * x = 1 + m * (-y) := by
        rw [hg] at hbez
        ring_nf
        ring_nf at hbez
        linarith
      rw [hrx, Int.add_mul_emod_self_left]
  · dsimp only
    unfold QuotientRing.multiplicative_inverse
    by_cases hr : u.remainder = 0
    · simp [hr]
    · rw [if_neg hr, ht]
      by_cases hg : g = 1
      · simp [hg, hr]
      · simp [hg, hr]

/-- Witness for C1: the unit [3] of Z/5Z, whose inverse is [2]. -/
theorem C1_multiplicative_inverse_witness :
    (QuotientRing.wrap 5 3).multiplicative_inverse
      = Except.ok (QuotientRing.wrap 5 (extended_euclidean_algorithm
          (QuotientRing.wrap 5 3).remainder 5).1) ∧
    ((QuotientRing.wrap 5 3).mul (QuotientRing.wrap 5
        (extended_euclidean_algorithm
          (QuotientRing.wrap 5 3).remainder 5).1)).equals
      (QuotientRing.one 5) = true :=
  (C1_multiplicative_inverse 5 (by decide) (QuotientRing.wrap 5 3)).1
    (by decide) (by decide)

/-! ### Helper lemmas about normalization and the loop lengths -/

theorem dropZerosRev_ne_nil {R : Type} [BEq R] (z : R) :
    ∀ l : List R, l ≠ [] → ListPolynomial.dropZerosRev z l ≠ [] := by
  intro l
  induction l with
  | nil => simp
  | cons c rest ih =>
    intro _
    cases rest with
    | nil => simp [ListPolynomial.dropZerosRev]
    | cons c' rest' =>
      by_cases hc : (c == z) = true
      · simpa [ListPolynomial.dropZerosRev, hc] using ih (by simp)
      · simp [ListPolynomial.dropZerosRev, hc]

theorem dropZerosRev_head {R : Type} [BEq R] (z : R) :
    ∀ l : List R, ∀ c, (ListPolynomial.dropZerosRev z l).head? = some c →
      (c == z) = true → (ListPolynomial.dropZerosRev z l).length = 1 := by
  intro l
  induction l with
  | nil => simp [ListPolynomial.dropZerosRev]
  | cons c0 rest ih =>
    intro c hc hcz
    cases rest with
    | nil => simp [ListPolynomial.dropZerosRev]
    | cons c' rest' =>
      by_cases h0 : (c0 == z) = true
      · rw [ListPolynomial.dropZerosRev, if_pos h0] at hc ⊢
        exact ih c hc hcz
      · rw [ListPolynomial.dropZerosRev, if_neg h0] at hc
        simp only [List.head?_cons, Option.some.injEq] at hc
        rw [← hc] at hcz
        exact absurd hcz h0

theorem remove_leading_zeros_normalized {R : Type} [BEq R] (z : R)
    (l : List R) (h : l ≠ []) :
    ListPolynomial.normalizedB z
      (ListPolynomial.remove_leading_zeros z l) = true := by
  unfold ListPolynomial.remove_leading_zeros ListPolynomial.normalizedB
  have hrev : l.reverse ≠ [] := by simpa using h
  have hne : ListPolynomial.dropZerosRev z l.reverse ≠ [] :=
    dropZerosRev_ne_nil z l.reverse hrev
  have hemp : ((ListPolynomial.dropZerosRev z l.reverse).reverse.isEmpty)
      = false := by
    simpa [List.isEmpty_iff] using hne
  rw [hemp]
  simp only [Bool.not_false, Bool.true_and, List.getLast?_reverse]
  cases hd : (ListPolynomial.dropZerosRev z l.reverse).head? with
  | none => rfl
  | some c =>
    by_cases hcz : (c == z) = true
    · have hlen := dropZerosRev_head z l.reverse c hd hcz
      simp [hcz, hlen]
    · simp [hcz]

theorem mulRowAux_length {R : Type} [Add R] [Mul R] (z x : R) (i : Nat) :
    ∀ (q : List R) (j : Nat) (acc : List R),
      (ListPolynomial.mulRowAux z x i q j acc).length = acc.length := by
  intro q
  induction q with
  | nil => intro j acc; rfl
  | cons y ys ih =>
    intro j acc
    rw [ListPolynomial.mulRowAux, ih]
    simp

theorem mulAux_length {R : Type} [Add R] [Mul R] (z : R) (qs : List R) :
    ∀ (ps : List R) (i : Nat) (acc : List R),
      (ListPolynomial.mulAux z qs ps i acc).length = acc.length := by
  intro ps
  induction ps with
  | nil => intro i acc; rfl
  | cons x xs ih =>
    intro i acc
    rw [ListPolynomial.mulAux, ih, mulRowAux_length]

theorem mulAccum_length {R : Type} [Add R] [Mul R] (z : R)
    (ps qs : List R) :
    (ListPolynomial.mulAccum z ps qs).length = ps.length + qs.length := by
  rw [ListPolynomial.mulAccum, mulAux_length]
  simp

theorem padAndZip_length {R : Type} (z : R) (l1 l2 : List R) :
    (ListPolynomial.padAndZip z l1 l2).length = max l1.length l2.length := by
  simp only [ListPolynomial.padAndZip, List.length_zip, List.length_append,
    List.length_replicate]
  omega

/-! ### Claims C8, C6, C7, C3: polynomial error handling and invariant -/

/-- C8: for every polynomial p, calling p.multiplicative_inverse() always
fails, regardless of p's value (the raised `TypeError` is what the spec
calls `NotInvertibleError`). -/
theorem C8_polynomial_no_inverse {R : Type} (p : ListPolynomial R) :
    p.multiplicative_inverse = Except.error PyError.typeError := rfl

/-- C6 (the code evaluated at the failing input): calling the
polynomial-ring constructor with an empty coefficient list does NOT fail —
no arity check exists in `PolynomialRing.__call__` or
`ListPolynomial.__init__` — and a ListPolynomial with an empty coefficient
sequence (reported degree -1) is returned, contrary to the claimed
`InvalidArityError`. -/
theorem C6_empty_coefficient_list :
    (PolynomialRing.callInt []).coefficients = [] ∧
    (PolynomialRing.callInt []).degree = -1 :=
  ⟨rfl, rfl⟩

/-- C7 counterexample: for p = make(5, 2, 1) over the integers, the access
`coefficient_at(3)` (index greater than the stored degree 2) raises
`IndexError` — it does not return the coefficient ring's zero as the claim
states. -/
theorem C7_counterexample :
    (PolynomialRing.callInt [5, 2, 1]).getItem 3
        = Except.error PyError.indexError ∧
    (PolynomialRing.callInt [5, 2, 1]).getItem 3 ≠ Except.ok 0 :=
  ⟨rfl, fun h => Except.noConfusion h⟩

/-- C7 (amended): for every polynomial p and index i, accessing index i
returns the stored coefficient when 0 ≤ i ≤ stored degree, and fails with
`IndexError` (rather than returning the coefficient ring's zero) when i is
greater than the stored degree. -/
theorem C7_coefficient_access {R : Type} (p : ListPolynomial R) (i : Nat) :
    (p.degree < (i : Int) →
      p.getItem i = Except.error PyError.indexError) ∧
    ((i : Int) ≤ p.degree →
      ∃ c, p.coefficients[i]? = some c ∧ p.getItem i = Except.ok c) := by
  constructor
  · intro h
    have hlen : p.coefficients.length ≤ i := by
      unfold ListPolynomial.degree at h
      omega
    unfold ListPolynomial.getItem
    rw [List.getElem?_eq_none hlen]
  · intro h
    have hlen : i < p.coefficients.length := by
      unfold ListPolynomial.degree at h
      omega
    refine ⟨p.coefficients[i], List.getElem?_eq_getElem hlen, ?_⟩
    unfold ListPolynomial.getItem
    rw [List.getElem?_eq_getElem hlen]

/-- Witness for C7 (amended) at p = make(5, 2, 1), i = 3. -/
theorem C7_coefficient_access_witness :
    (PolynomialRing.callInt [5, 2, 1]).getItem 3
      = Except.error PyError.indexError :=
  (C7_coefficient_access (PolynomialRing.callInt [5, 2, 1]) 3).1 (by decide)

/-- C3 counterexample: the constructor applied to the empty coefficient
list produces a Polynomial that violates the normalization invariant (its
coefficient sequence has no element at all). -/
theorem C3_counterexample :
    ListPolynomial.normalizedB (0 : Int)
      (PolynomialRing.callInt []).coefficients = false := rfl

/-- C3 (amended): every Polynomial produced by the constructor from a
NON-EMPTY coefficient list, or by add, neg, or mul applied to polynomials
with non-empty coefficient sequences, satisfies the normalization
invariant: the sequence has at least one element and its highest-index
element is not the coefficient ring's zero except when the sole element is
zero; in particular make(0).equals(make(0,0,0)) holds. -/
theorem C3_normalization_invariant {R : Type} [BEq R] [Add R] [Mul R]
    [Neg R] :
    (∀ (z : R) (l : List R), l ≠ [] →
      ListPolynomial.normalizedB z
        (ListPolynomial.make z l).coefficients = true) ∧
    (∀ p q : ListPolynomial R,
      p.coefficients ≠ [] → q.coefficients ≠ [] →
      ListPolynomial.normalizedB p.zeroCoefficient
        (p.add q).coefficients = true) ∧
    (∀ p : ListPolynomial R, p.coefficients ≠ [] →
      ListPolynomial.normalizedB p.zeroCoefficient
        p.neg.coefficients = true) ∧
    (∀ p q : ListPolynomial R,
      p.coefficients ≠ [] → q.coefficients ≠ [] →
      ListPolynomial.normalizedB p.zeroCoefficient
        (p.mul q).coefficients = true) ∧
    (PolynomialRing.callInt [0]).beq (PolynomialRing.callInt [0, 0, 0])
      = true := by
  have hmk : ∀ (z : R) (l : List R), l ≠ [] →
      ListPolynomial.normalizedB z
        (ListPolynomial.make z l).coefficients = true := by
    intro z l h
    exact remove_leading_zeros_normalized z l h
  refine ⟨hmk, ?_, ?_, ?_, by rfl⟩
  · intro p q hp hq
    apply hmk
    have := padAndZip_length p.zeroCoefficient p.coefficients q.coefficients
    intro hnil
    rw [← List.length_eq_zero] at hnil
    rw [List.length_map, this] at hnil
    have : p.coefficients.length ≠ 0 := by
      simpa [List.length_eq_zero] using hp
    omega
  · intro p hp
    apply hmk
    intro hnil
    rw [← List.length_eq_zero, List.length_map, List.length_eq_zero] at hnil
    exact hp hnil
  · intro p q hp hq
    apply hmk
    intro hnil
    rw [← List.length_eq_zero, mulAccum_length] at hnil
    have : p.coefficients.length ≠ 0 := by
      simpa [List.length_eq_zero] using hp
    omega

/-- Witness for C3 (amended): the constructor normalizes [0, 0, 0]. -/
theorem C3_normalization_invariant_witness :
    ListPolynomial.normalizedB (0 : Int)
      (ListPolynomial.make (0 : Int) [0, 0, 0]).coefficients = true :=
  C3_normalization_invariant.1 0 [0, 0, 0] (by simp)

/-! ### Claim C10: multiplication by the zero polynomial -/

theorem set_preserves_allz {R : Type} (z : R) :
    ∀ (l : List R) (i : Nat), (∀ c ∈ l, c = z) → ∀ c ∈ l.set i z, c = z := by
  intro l
  induction l with
  | nil => intro i h c hc; simp at hc
  | cons a l ih =>
    intro i h c hc
    cases i with
    | zero =>
      have hset : (a :: l).set 0 z = z :: l := rfl
      rw [hset] at hc
      rcases List.mem_cons.mp hc with rfl | hc'
      · rfl
      · exact h c (List.mem_cons_of_mem _ hc')
    | succ i =>
      have hset : (a :: l).set (i + 1) z = a :: l.set i z := rfl
      rw [hset] at hc
      rcases List.mem_cons.mp hc with rfl | hc'
      · exact h c (List.mem_cons_self _ _)
      · exact ih i (fun d hd => h d (List.mem_cons_of_mem _ hd)) c hc'

theorem getD_allz {R : Type} (z : R) (l : List R) (h : ∀ c ∈ l, c = z)
    (n : Nat) : l.getD n z = z := by
  rw [List.getD_eq_getElem?_getD]
  cases hg : l[n]? with
  | none => rfl
  | some c =>
    obtain ⟨hlt, he⟩ := List.getElem?_eq_some_iff.mp hg
    have hc : c ∈ l := he ▸ List.getElem_mem hlt
    simp [h c hc]

theorem mulAux_singleton_allz {R : Type} [Add R] [Mul R] (z : R)
    (habs : ∀ x : R, x * z = z) (hneut : ∀ x : R, z + x = x) :
    ∀ (ps : List R) (i : Nat) (acc : List R), (∀ c ∈ acc, c = z) →
      ∀ c ∈ ListPolynomial.mulAux z [z] ps i acc, c = z := by
  intro ps
  induction ps with
  | nil => intro i acc h c hc; exact h c hc
  | cons x xs ih =>
    intro i acc h c hc
    rw [ListPolynomial.mulAux] at hc
    have hrow : ListPolynomial.mulRowAux z x i [z] 0 acc
        = acc.set (i + 0) (acc.getD (i + 0) z + x * z) := rfl
    rw [hrow, getD_allz z acc h, habs x, hneut z] at hc
    exact ih (i + 1) _ (set_preserves_allz z acc (i + 0) h) c hc

theorem dropZerosRev_allz {R : Type} [BEq R] (z : R)
    (hrefl : (z == z) = true) :
    ∀ l : List R, l ≠ [] → (∀ c ∈ l, c = z) →
      ListPolynomial.dropZerosRev z l = [z] := by
  intro l
  induction l with
  | nil => intro h; exact absurd rfl h
  | cons c rest ih =>
    intro _ hall
    have hc : c = z := hall c (List.mem_cons_self c rest)
    cases rest with
    | nil => rw [hc]; rfl
    | cons c' rest' =>
      have hstep : ListPolynomial.dropZerosRev z (c :: c' :: rest')
          = if c == z then ListPolynomial.dropZerosRev z (c' :: rest')
            else c :: c' :: rest' := rfl
      rw [hstep, hc, hrefl]
      simp only [if_true]
      exact ih (by simp) (fun d hd => hall d (List.mem_cons_of_mem _ hd))

/-- C10: multiplication by the zero polynomial annihilates — for every
polynomial p over a coefficient ring in which the zero coefficient is
(right-)absorbing for multiplication, neutral for addition, and equal to
itself under the ring's `==`, `p.mul(make(0)).equals(make(0))`: the
all-zero convolution result normalizes down to the single-coefficient zero
polynomial. -/
theorem C10_mul_zero_polynomial {R : Type} [BEq R] [Add R] [Mul R]
    (z : R) (habs : ∀ x : R, x * z = z) (hneut : ∀ x : R, z + x = x)
    (hrefl : (z == z) = true) (p : ListPolynomial R)
    (hz : p.zeroCoefficient = z) :
    (p.mul (PolynomialRing.call z [z])).beq (PolynomialRing.call z [z])
      = true := by
  have hq : (PolynomialRing.call z [z]).coefficients = [z] := rfl
  have hall : ∀ c ∈ ListPolynomial.mulAccum z p.coefficients [z], c = z := by
    intro c hc
    rw [ListPolynomial.mulAccum] at hc
    exact mulAux_singleton_allz z habs hneut p.coefficients 0 _
      (fun d hd => List.eq_of_mem_replicate hd) c hc
  have hlen : (ListPolynomial.mulAccum z p.coefficients [z]).length
      = p.coefficients.length + 1 := by
    rw [mulAccum_length]
    rfl
  have hne : ListPolynomial.mulAccum z p.coefficients [z] ≠ [] := by
    intro h0
    rw [h0] at hlen
    simp at hlen
  have hrevne : (ListPolynomial.mulAccum z p.coefficients [z]).reverse
      ≠ [] := by
    simpa using hne
  have hcoeff : ListPolynomial.remove_leading_zeros z
      (ListPolynomial.mulAccum z p.coefficients [z]) = [z] := by
    unfold ListPolynomial.remove_leading_zeros
    rw [dropZerosRev_allz z hrefl _ hrevne
      (fun c hc => hall c (List.mem_reverse.mp hc))]
    rfl
  show (ListPolynomial.make p.zeroCoefficient
      (ListPolynomial.mulAccum p.zeroCoefficient p.coefficients
        (PolynomialRing.call z [z]).coefficients)).beq
      (PolynomialRing.call z [z]) = true
  rw [hz, hq]
  have hmk : ListPolynomial.make z
      (ListPolynomial.mulAccum z p.coefficients [z])
      = ⟨z, [z]⟩ := by
    unfold ListPolynomial.make
    rw [hcoeff]
  rw [hmk]
  show (ListPolynomial.beq ⟨z, [z]⟩ ⟨z, [z]⟩) = true
  simp [ListPolynomial.beq, ListPolynomial.degree, hrefl]

/-- Witness for C10 over the integers with p = make(5, 2, 1). -/
theorem C10_mul_zero_polynomial_witness :
    ((PolynomialRing.callInt [5, 2, 1]).mul
        (PolynomialRing.call (0 : Int) [0])).beq
      (PolynomialRing.call (0 : Int) [0]) = true :=
  C10_mul_zero_polynomial 0 (fun x => mul_zero x) (fun x => zero_add x)
    (by decide) (PolynomialRing.callInt [5, 2, 1]) rfl

/-! ### Claim C2: `__mul__` computes the schoolbook convolution -/

theorem mulRowAux_getD (x : Int) (i : Nat) :
    ∀ (q : List Int) (j : Nat) (acc : List Int) (k : Nat),
      i + j + q.length ≤ acc.length →
      (ListPolynomial.mulRowAux 0 x i q j acc).getD k 0 =
        acc.getD k 0 +
          (if i + j ≤ k ∧ k < i + j + q.length
           then x * q.getD (k - (i + j)) 0 else 0) := by
  intro q
  induction q with
  | nil =>
    intro j acc k h
    have hnil : ListPolynomial.mulRowAux 0 x i [] j acc = acc := rfl
    rw [hnil]
    simp only [List.length_nil]
    rw [if_neg (by omega), add_zero]
  | cons y ys ih =>
    intro j acc k h
    simp only [List.length_cons] at h
    have hcons : ListPolynomial.mulRowAux 0 x i (y :: ys) j acc
        = ListPolynomial.mulRowAux 0 x i ys (j + 1)
            (acc.set (i + j) (acc.getD (i + j) 0 + x * y)) := rfl
    rw [hcons, ih (j + 1) _ k (by simp only [List.length_set]; omega)]
    by_cases hk : k = i + j
    · subst hk
      have hlt : i + j < acc.length := by omega
      have hset : (acc.set (i + j) (acc.getD (i + j) 0 + x * y)).getD
          (i + j) 0 = acc.getD (i + j) 0 + x * y := by
        simp only [List.getD_eq_getElem?_getD, List.getElem?_set_self hlt]
        rfl
      rw [hset]
      simp only [List.length_cons]
      rw [if_neg (show ¬(i + (j + 1) ≤ i + j ∧
          i + j < i + (j + 1) + ys.length) by omega),
        if_pos (show i + j ≤ i + j ∧ i + j < i + j + (ys.length + 1)
          by omega),
        Nat.sub_self, List.getD_cons_zero]
      ring
    · have hset : (acc.set (i + j) (acc.getD (i + j) 0 + x * y)).getD k 0
          = acc.getD k 0 := by
        simp only [List.getD_eq_getElem?_getD,
          List.getElem?_set_ne (fun he => hk he.symm)]
      rw [hset]
      simp only [List.length_cons]
      split_ifs with h1 h2
      · have hidx : k - (i + j) = (k - (i + (j + 1))) + 1 := by omega
        rw [hidx, List.getD_cons_succ]
      · omega
      · omega
      · rfl

theorem mulAux_getD (qs : List Int) :
    ∀ (ps : List Int) (i0 : Nat) (acc : List Int) (k : Nat),
      i0 + ps.length + qs.length ≤ acc.length + 1 →
      (ListPolynomial.mulAux 0 qs ps i0 acc).getD k 0 =
        acc.getD k 0 + ∑ i ∈ Finset.range ps.length,
          (if i0 + i ≤ k then ps.getD i 0 * qs.getD (k - (i0 + i)) 0
           else 0) := by
  intro ps
  induction ps with
  | nil =>
    intro i0 acc k h
    have hnil : ListPolynomial.mulAux 0 qs [] i0 acc = acc := rfl
    rw [hnil]
    simp
  | cons x xs ih =>
    intro i0 acc k h
    simp only [List.length_cons] at h
    have hcons : ListPolynomial.mulAux 0 qs (x :: xs) i0 acc
        = ListPolynomial.mulAux 0 qs xs (i0 + 1)
            (ListPolynomial.mulRowAux 0 x i0 qs 0 acc) := rfl
    rw [hcons, ih (i0 + 1) _ k (by rw [mulRowAux_length]; omega),
      mulRowAux_getD x i0 qs 0 acc k (by omega)]
    simp only [List.length_cons]
    rw [Finset.sum_range_succ']
    have hshift : ∀ i : Nat,
        (if i0 + (i + 1) ≤ k
         then (x :: xs).getD (i + 1) 0 * qs.getD (k - (i0 + (i + 1))) 0
         else 0)
        = (if i0 + 1 + i ≤ k
           then xs.getD i 0 * qs.getD (k - (i0 + 1 + i)) 0 else 0) := by
      intro i
      have h1 : i0 + (i + 1) = i0 + 1 + i := by omega
      rw [h1, List.getD_cons_succ]
    rw [Finset.sum_congr rfl fun i _ => hshift i]
    have hterm0 :
        (if i0 + 0 ≤ k ∧ k < i0 + 0 + qs.length
         then x * qs.getD (k - (i0 + 0)) 0 else 0)
        = (if i0 + 0 ≤ k
           then (x :: xs).getD 0 0 * qs.getD (k - (i0 + 0)) 0 else 0) := by
      rw [List.getD_cons_zero]
      by_cases h1 : i0 + 0 ≤ k
      · by_cases h2 : k < i0 + 0 + qs.length
        · rw [if_pos ⟨h1, h2⟩, if_pos h1]
        · rw [if_neg (fun hx => h2 hx.2), if_pos h1]
          have hout : qs.length ≤ k - (i0 + 0) := by omega
          rw [List.getD_eq_getElem?_getD, List.getElem?_eq_none hout]
          simp
      · rw [if_neg (fun hx => h1 hx.1), if_neg h1]
    rw [hterm0]
    ring

theorem mulAccum_getD (ps qs : List Int) (k : Nat) :
    (ListPolynomial.mulAccum 0 ps qs).getD k 0 =
      ∑ i ∈ Finset.range ps.length,
        (if i ≤ k then ps.getD i 0 * qs.getD (k - i) 0 else 0) := by
  rw [ListPolynomial.mulAccum,
    mulAux_getD qs ps 0 _ k (by simp only [List.length_replicate]; omega)]
  have hrep : (List.replicate (ps.length + qs.length) (0 : Int)).getD k 0
      = 0 := by
    rw [List.getD_eq_getElem?_getD, List.getElem?_replicate]
    split_ifs <;> rfl
  rw [hrep, zero_add]
  exact Finset.sum_congr rfl fun i _ => by rw [Nat.zero_add]

theorem conv_sum_eq (ps qs : List Int) (k : Nat) :
    ∑ i ∈ Finset.range ps.length,
        (if i ≤ k then ps.getD i 0 * qs.getD (k - i) 0 else 0)
      = ∑ i ∈ Finset.range (k + 1), ps.getD i 0 * qs.getD (k - i) 0 := by
  have hleft : ∑ i ∈ Finset.range ps.length,
        (if i ≤ k then ps.getD i 0 * qs.getD (k - i) 0 else 0)
      = ∑ i ∈ Finset.range (max ps.length (k + 1)),
        (if i ≤ k then ps.getD i 0 * qs.getD (k - i) 0 else 0) := by
    apply Finset.sum_subset
      (Finset.range_subset.mpr (le_max_left ps.length (k + 1)))
    intro i _ hni
    have hout : ps.length ≤ i := by
      simpa using Nat.le_of_not_lt (fun hlt => hni (Finset.mem_range.mpr hlt))
    have hzero : ps.getD i 0 = 0 := by
      rw [List.getD_eq_getElem?_getD, List.getElem?_eq_none hout]
      rfl
    rw [hzero, zero_mul, ite_self]
  have hright : ∑ i ∈ Finset.range (k + 1),
        ps.getD i 0 * qs.getD (k - i) 0
      = ∑ i ∈ Finset.range (max ps.length (k + 1)),
        (if i ≤ k then ps.getD i 0 * qs.getD (k - i) 0 else 0) := by
    rw [← Finset.sum_subset
      (Finset.range_subset.mpr (le_max_right ps.length (k + 1)))
      (fun i _ hni => ?_)]
    · apply Finset.sum_congr rfl
      intro i hi
      have : i ≤ k := by
        have := Finset.mem_range.mp hi
        omega
      rw [if_pos this]
    · have hout : k + 1 ≤ i :=
        Nat.le_of_not_lt (fun hlt => hni (Finset.mem_range.mpr hlt))
      rw [if_neg (by omega)]
  rw [hleft, hright]

/-- C2: polynomial multiplication is the schoolbook convolution — for every
pair of coefficient lists the pre-normalization result has length
`deg(p) + deg(q) + 2` (equivalently `ps.length + qs.length`), and its slot
k holds the sum of `p[i]*q[j]` over all `i+j = k`; concretely, over the
integers, for p = make(5, 2, 1), `p.mul(p).equals(make(25, 20, 14, 4, 1))`
holds. -/
theorem C2_schoolbook_convolution :
    (∀ ps qs : List Int,
      (ListPolynomial.mulAccum 0 ps qs).length = ps.length + qs.length) ∧
    (∀ p q : ListPolynomial Int,
      ((ListPolynomial.mulAccum 0 p.coefficients q.coefficients).length :
          Int) = p.degree + q.degree + 2) ∧
    (∀ (ps qs : List Int) (k : Nat),
      (ListPolynomial.mulAccum 0 ps qs).getD k 0
        = ∑ i ∈ Finset.range (k + 1), ps.getD i 0 * qs.getD (k - i) 0) ∧
    ((PolynomialRing.callInt [5, 2, 1]).mul
        (PolynomialRing.callInt [5, 2, 1])).beq
      (PolynomialRing.callInt [25, 20, 14, 4, 1]) = true := by
  refine ⟨fun ps qs => mulAccum_length 0 ps qs, ?_, ?_, by rfl⟩
  · intro p q
    rw [mulAccum_length]
    unfold ListPolynomial.degree
    push_cast
    ring
  · intro ps qs k
    rw [mulAccum_getD, conv_sum_eq]
